import Mathlib

/-
Verification development for the mcp-typescript-docs request-metering worker.

The definitions below are shallow embeddings of the TypeScript sources:
  * src/src/server.ts        — the search_mcp_docs tool handler
  * src/src/api-key-handler.ts — the LRUCache of MCP server instances and the
    API-key request path
  * src/src/tokenUtils.ts    — user lookups and the OAuth success page
  * src/unnamed/part_001     — the OAuth callback's user gate
External collaborators (the AI-search call, the security library, the balance
store) appear as oracle fields of explicit environment records.  The
consumption ledger (src/tokenConsumption.ts) is not part of the provided
sources and is modelled from the specification where claims require it.
-/

set_option maxRecDepth 4000

/-! ## String utilities (JS `String.prototype.includes` / `replace`) -/

/-- Does `pat` occur as a contiguous segment of the character list?
Mirrors JavaScript `s.includes(pat)`. -/
def segOccurs (pat : List Char) : List Char → Bool
  | [] => pat.isEmpty
  | c :: rest => pat.isPrefixOf (c :: rest) || segOccurs pat rest

/-- JS `s.includes(pat)` on strings. -/
def strContains (s pat : String) : Bool :=
  segOccurs pat.data s.data

/-- Number of (possibly overlapping) occurrences of `pat` in the list. -/
def segCount (pat : List Char) : List Char → Nat
  | [] => 0
  | c :: rest => (if pat.isPrefixOf (c :: rest) then 1 else 0) + segCount pat rest

/-- Occurrence count of `pat` in `s`. -/
def strCount (s pat : String) : Nat :=
  segCount pat.data s.data

/-- JS `s.replace(pat, rep)` with a plain (non-regex) pattern: replace only the
first occurrence. -/
def segReplaceFirst (pat rep : List Char) : List Char → List Char
  | [] => []
  | c :: rest =>
    if pat.isPrefixOf (c :: rest) then rep ++ (c :: rest).drop pat.length
    else c :: segReplaceFirst pat rep rest

/-- JS `s.replace(pat, rep)` on strings (first occurrence only). -/
def strReplaceFirst (s pat rep : String) : String :=
  String.mk (segReplaceFirst pat.data rep.data s.data)

/-! ## ConsumptionLedger (modelled from the spec)

`src/tokenConsumption.ts` (exporting `checkBalance` and
`consumeTokensWithRetry`) is listed in the repository README but is not among
the provided sources; only its callers are.  The ledger state and its `consume`
operation are therefore modelled from spec §3 and §4.3. -/

/-- A usage event, from spec §3: identity, operation name, cost, idempotency
key, a serialized metadata snapshot, and the balance committed by the debit.
The timestamp field is omitted: no claim refers to it and the model has no
clock. -/
structure UsageEvent where
  identity : String
  operation : String
  cost : Nat
  idempotencyKey : String
  metadata : String
  newBalance : Nat
deriving DecidableEq

/-- The successful result of `consume`, per the spec contract
`{committed: bool, newBalance: int}`. -/
structure ConsumeOk where
  committed : Bool
  newBalance : Nat
deriving DecidableEq

/-- Outcome of `consume`: success or the terminal `InsufficientBalance`. -/
inductive ConsumeOutcome where
  | ok (r : ConsumeOk)
  | insufficientBalance
deriving DecidableEq

/-- The external store's state: per-identity balances and committed usage
events. -/
structure LedgerState where
  balances : List (String × Nat)
  events : List UsageEvent
deriving DecidableEq

/-- Balance of an identity (spec §3: one Identity has one Balance; an unknown
identity owns no units). -/
def getBalance (st : LedgerState) (id : String) : Nat :=
  match st.balances.find? (fun p => p.1 == id) with
  | some p => p.2
  | none => 0

/-- Write an identity's balance (update in place, or append a fresh row). -/
def setBalance : List (String × Nat) → String → Nat → List (String × Nat)
  | [], id, b => [(id, b)]
  | p :: rest, id, b => if p.1 == id then (id, b) :: rest else p :: setBalance rest id b

/-- The usage event previously committed under an idempotency key, if any. -/
def findEvent (st : LedgerState) (key : String) : Option UsageEvent :=
  st.events.find? (fun e => e.idempotencyKey == key)

/-- Committed usage events carrying a given idempotency key. -/
def countEvents (st : LedgerState) (key : String) : Nat :=
  (st.events.filter (fun e => e.idempotencyKey == key)).length

/-- Modelled from the spec: `consume` of the ConsumptionLedger
(src/tokenConsumption.ts, not among the provided sources), following §4.3.
If a UsageEvent already exists for the idempotency key, the previously
committed result is returned and nothing is re-debited; if the balance is
insufficient at commit time the call fails terminally; otherwise the debit and
the usage event are committed as one atomic step. -/
def consume (st : LedgerState) (identity : String) (cost : Nat) (key : String)
    (operation metadata : String) : ConsumeOutcome × LedgerState :=
  match findEvent st key with
  | some e => (.ok ⟨true, e.newBalance⟩, st)
  | none =>
    let bal := getBalance st identity
    if bal < cost then (.insufficientBalance, st)
    else
      let nb := bal - cost
      (.ok ⟨true, nb⟩,
       { balances := setBalance st.balances identity nb,
         events := { identity := identity, operation := operation, cost := cost,
                     idempotencyKey := key, metadata := metadata,
                     newBalance := nb } :: st.events })

/-! ## The search_mcp_docs tool handler (src/src/server.ts)

The handler is embedded as a pure function over an environment record whose
fields are the oracle answers of the external collaborators: the
authentication props, the balance check (src/tokenConsumption.ts, a
collaborator boundary here), the Workers AI binding and its `aiSearch` call,
the pilpat-mcp-security library functions and the token-consumption call.
`Except.error msg` models a thrown error with message `msg`.  The result
records the content text and error flag plus, as effect logs, the queries
passed to `aiSearch` and the actionIds passed to `consumeTokensWithRetry`. -/

/-- Result shape of `checkBalance` (spec §4.2 contract). -/
structure BalanceCheck where
  sufficient : Bool
  currentBalance : Nat
deriving DecidableEq

/-- Result shape of `validateOutput` from pilpat-mcp-security. -/
structure ValidationResult where
  valid : Bool
  errors : List String

/-- Oracle environment of one invocation of the search_mcp_docs handler. -/
structure ToolEnv where
  userId : Option String
  balanceCheck : Except String BalanceCheck
  aiConfigured : Bool
  aiSearch : String → Except String String
  sanitize : String → String
  hasPII : String → Bool
  redact : String → String × List String
  validate : String → ValidationResult
  consumeResult : Except String Unit

/-- Observable outcome of one handler invocation: the MCP content text and
error flag, plus the logged external calls. -/
structure ToolResult where
  isError : Bool
  text : String
  aiCalls : List String
  consumeCalls : List String
deriving DecidableEq

/-- Modelled from the spec: `formatInsufficientTokensError` is imported from
src/tokenUtils.ts but absent from the provided copy of that file; per spec §7
it is a "top up" message carrying the current balance and required cost. -/
def formatInsufficientTokensError (tool : String) (current cost : Nat) : String :=
  "Insufficient tokens for " ++ tool ++ ": current balance " ++ toString current
    ++ ", required " ++ toString cost ++ ". Please top up."

/-- server.ts line 269: instance-not-found error text. -/
def ragNotFoundText : String :=
  "AI Search instance \x27map-docs\x27 not found or not ready. Please verify the instance exists in Cloudflare Dashboard and indexing is complete."

/-- server.ts line 279: still-indexing error text. -/
def stillIndexingText : String :=
  "Model Context Protocol (MCP) TypeScript SDK documentation from GitHub is still indexing. Please try again in a few minutes."

/-- server.ts line 290: generic failure text embedding the error message. -/
def genericFailText (msg : String) : String :=
  "Failed to search Model Context Protocol (MCP) TypeScript SDK documentation from GitHub: " ++ msg

/-- The catch block of the search_mcp_docs handler (server.ts lines 259-294):
the thrown error's message is classified purely by substring matching. -/
def classifyCatch (msg : String) : String :=
  if strContains msg "AI Search instance not found" || strContains msg "AutoRAG instance"
  then ragNotFoundText
  else if strContains msg "indexing" then stillIndexingText
  else genericFailText msg

/-- Steps 4.5-6 of the search_mcp_docs handler (server.ts lines 165-258):
sanitize, optionally redact, validate, consume tokens, return the processed
answer.  `actionId` is the idempotency key the handler mints by
`crypto.randomUUID()` at line 128, before the try block; here it is a
parameter standing for that freshly minted value.  TOOL_COST is 1. -/
def searchPostProcess (env : ToolEnv) (query : String) (actionId : String)
    (resp : String) : ToolResult :=
  let s1 := env.sanitize resp
  let rd := if env.hasPII s1 then env.redact s1 else (s1, [])
  let vr := env.validate rd.1
  if vr.valid = false then
    ⟨true, classifyCatch ("Output validation failed: " ++ String.intercalate ", " vr.errors), [query], []⟩
  else
    match env.consumeResult with
    | .error msg => ⟨true, classifyCatch msg, [query], [actionId]⟩
    | .ok _ => ⟨false, rd.1, [query], [actionId]⟩

/-- The search_mcp_docs tool handler (server.ts lines 124-295), steps 1-4:
userId, balance gate, the billed AI-search call, then `searchPostProcess`. -/
def searchMcpDocs (env : ToolEnv) (query : String) (actionId : String) : ToolResult :=
  match env.userId with
  | none => ⟨true, classifyCatch "User ID not found in authentication context", [], []⟩
  | some _ =>
    match env.balanceCheck with
    | .error msg => ⟨true, classifyCatch msg, [], []⟩
    | .ok bc =>
      if bc.sufficient = false then
        ⟨true, formatInsufficientTokensError "search_mcp_docs" bc.currentBalance 1, [], []⟩
      else if env.aiConfigured = false then
        ⟨true, classifyCatch "Workers AI binding not configured. Add \x27ai\x27 binding to wrangler.jsonc", [], []⟩
      else
        match env.aiSearch query with
        | .error msg => ⟨true, classifyCatch msg, [query], []⟩
        | .ok resp => searchPostProcess env query actionId resp

/-- Environment in which the billed AI-search call throws. -/
def envCallFails : ToolEnv :=
  { userId := some "u1", balanceCheck := .ok ⟨true, 5⟩, aiConfigured := true,
    aiSearch := fun _ => .error "boom", sanitize := fun s => s, hasPII := fun _ => false,
    redact := fun s => (s, []), validate := fun _ => ⟨true, []⟩, consumeResult := .ok () }

/-- Environment whose balance check reports insufficient (balance 0, cost 1). -/
def envBroke : ToolEnv :=
  { userId := some "u1", balanceCheck := .ok ⟨false, 0⟩, aiConfigured := true,
    aiSearch := fun s => .ok s, sanitize := fun s => s, hasPII := fun _ => false,
    redact := fun s => (s, []), validate := fun _ => ⟨true, []⟩, consumeResult := .ok () }

/-- Environment whose AI-search error message contains both "AutoRAG instance"
and "indexing". -/
def envBothSubstrings : ToolEnv :=
  { userId := some "u1", balanceCheck := .ok ⟨true, 5⟩, aiConfigured := true,
    aiSearch := fun _ => .error "AutoRAG instance map-docs is still indexing",
    sanitize := fun s => s, hasPII := fun _ => false,
    redact := fun s => (s, []), validate := fun _ => ⟨true, []⟩, consumeResult := .ok () }

/-- Environment whose AI-search error message matches no known substring. -/
def envGenericError : ToolEnv :=
  { userId := some "u1", balanceCheck := .ok ⟨true, 5⟩, aiConfigured := true,
    aiSearch := fun _ => .error "socket hang up", sanitize := fun s => s,
    hasPII := fun _ => false, redact := fun s => (s, []),
    validate := fun _ => ⟨true, []⟩, consumeResult := .ok () }

/-! ## User lookups, the API-key path, and the OAuth callback gate
(src/src/tokenUtils.ts, src/src/api-key-handler.ts, src/unnamed/part_001)

The D1 users table is embedded as a list of rows; the SQL
`SELECT * FROM users WHERE ... AND is_deleted = 0` with `.first()` is the
first row satisfying the WHERE clause.  `validateApiKey` (src/apiKeys.ts, not
among the provided sources) is an oracle field. -/

/-- A row of the users table (tokenUtils.ts `DatabaseUser`). -/
structure DatabaseUser where
  user_id : String
  email : String
  stripe_customer_id : Option String
  created_at : String
  is_deleted : Nat
deriving DecidableEq

/-- tokenUtils.ts `getUserByEmail`: first row with the given email that is not
deleted (`WHERE email = ? AND is_deleted = 0`). -/
def getUserByEmail (db : List DatabaseUser) (email : String) : Option DatabaseUser :=
  db.find? (fun u => u.email == email && u.is_deleted == 0)

/-- tokenUtils.ts `getUserById`: first row with the given user id that is not
deleted (`WHERE user_id = ? AND is_deleted = 0`). -/
def getUserById (db : List DatabaseUser) (userId : String) : Option DatabaseUser :=
  db.find? (fun u => u.user_id == userId && u.is_deleted == 0)

/-- api-key-handler.ts line 180: strip the "Bearer " prefix from the
Authorization header (JS `replace` rewrites the first occurrence only). -/
def bearerToken (authHeader : String) : String :=
  strReplaceFirst authHeader "Bearer " ""

/-- Oracle environment of one API-key authenticated request. -/
structure ApiKeyEnv where
  authHeader : Option String
  validateKey : String → Option String
  db : List DatabaseUser

/-- Observable outcome of `handleApiKeyRequest`: the HTTP status and the user
id for which `getOrCreateServer` was invoked (and its server cached), if any. -/
structure ApiKeyResult where
  status : Nat
  cachedUser : Option String
deriving DecidableEq

/-- api-key-handler.ts `handleApiKeyRequest` (lines 169-224): extract the API
key, validate it, load the user (`getUserById` already filters deleted
accounts), create-or-get the cached server, then dispatch on the pathname.
Store failures (the catch to a 500) are outside this model. -/
def handleApiKeyRequest (env : ApiKeyEnv) (pathname : String) : ApiKeyResult :=
  match env.authHeader with
  | none => ⟨401, none⟩
  | some h =>
    let apiKey := bearerToken h
    if apiKey = "" then ⟨401, none⟩
    else
      match env.validateKey apiKey with
      | none => ⟨401, none⟩
      | some userId =>
        match getUserById env.db userId with
        | none => ⟨404, none⟩
        | some _ =>
          if pathname = "/mcp" then ⟨200, some userId⟩ else ⟨400, some userId⟩

/-- Decision taken by the OAuth callback after the database lookup
(src/unnamed/part_001 lines 324-339). -/
inductive CallbackDecision where
  | purchaseRequired
  | accountDeleted
  | authorize (userId email : String)
deriving DecidableEq

/-- The OAuth callback's user gate on the looked-up record: no record yields
the 403 purchase-required page; a record with `is_deleted = 1` yields the 403
account-deleted page (the defensive check at part_001 line 336); otherwise
authorization completes with the record's identity. -/
def callbackGate (dbUser : Option DatabaseUser) : CallbackDecision :=
  match dbUser with
  | none => .purchaseRequired
  | some u => if u.is_deleted == 1 then .accountDeleted else .authorize u.user_id u.email

/-- The callback's user check: the gate applied to `getUserByEmail`. -/
def callbackUserCheck (db : List DatabaseUser) (email : String) : CallbackDecision :=
  callbackGate (getUserByEmail db email)

/-! ## The OAuth success page (src/src/tokenUtils.ts lines 102-291) -/

/-- JS `s.replace(/c/g, rep)`: replace every occurrence of the character `c`
by the replacement string. -/
def replaceAllChar (c : Char) (rep : List Char) : List Char → List Char
  | [] => []
  | d :: rest =>
    if d = c then rep ++ replaceAllChar c rep rest
    else d :: replaceAllChar c rep rest

/-- tokenUtils.ts `escapeHtml`: successive global replacements of
`&`, `<`, `>`, `"` and the apostrophe by their HTML entities. -/
def escapeHtml (s : String) : String :=
  String.mk (replaceAllChar '\'' "&#039;".data
    (replaceAllChar '"' "&quot;".data
      (replaceAllChar '>' "&gt;".data
        (replaceAllChar '<' "&lt;".data
          (replaceAllChar '&' "&amp;".data s.data)))))

/-- tokenUtils.ts `escapeJs`: successive global replacements of the backslash,
both quote characters, and the newline and carriage-return characters. -/
def escapeJs (s : String) : String :=
  String.mk (replaceAllChar '\r' "\\r".data
    (replaceAllChar '\n' "\\n".data
      (replaceAllChar '"' "\\\"".data
        (replaceAllChar '\'' "\\\x27".data
          (replaceAllChar '\\' "\\\\".data s.data)))))

/-- Literal chunks of the tokenUtils.ts OAuth success page template
(lines 125-290), split at its four interpolation points. -/
def oauthSeg0 : String :=
  "<!DOCTYPE html>\n<html lang=\"pl\">\n<head>\n    <meta charset=\"UTF-8\">\n    <meta name=\"viewport\" content=\"width=device-width, initial-scale=1.0\">\n    <title>Autoryzacja zakończona - wtyczki.ai</title>\n    <style>\n        * \x7b\n            margin: 0;\n            padding: 0;\n            box-sizing: border-box;\n        \x7d\n        body \x7b\n            font-family: system-ui, -apple-system, BlinkMacSystemFont, \x27Segoe UI\x27, Roboto, sans-serif;\n            background: linear-gradient(135deg, #667eea 0%, #764ba2 100%);\n            min-height: 100vh;\n            display: flex;\n            align-items: center;\n            justify-content: center;\n            padding: 20px;\n        \x7d\n        .container \x7b\n            background: white;\n            border-radius: 16px;\n            box-shadow: 0 20px 60px rgba(0, 0, 0, 0.3);\n            max-width: 500px;\n            width: 100%;\n            padding: 48px 40px;\n            text-align: center;\n        \x7d\n        .success-icon \x7b\n            font-size: 72px;\n            margin-bottom: 24px;\n            animation: scaleIn 0.5s ease-out;\n        \x7d\n        @keyframes scaleIn \x7b\n            from \x7b transform: scale(0); opacity: 0; \x7d\n            to \x7b transform: scale(1); opacity: 1; \x7d\n        \x7d\n        h1 \x7b\n            font-size: 28px;\n            color: #1f2937;\n            margin-bottom: 16px;\n            font-weight: 700;\n        \x7d\n        .message \x7b\n            font-size: 16px;\n            color: #6b7280;\n            line-height: 1.6;\n            margin-bottom: 24px;\n        \x7d\n        .email \x7b\n            font-weight: 600;\n            color: #3b82f6;\n        \x7d\n        .close-info \x7b\n            background: #f0fdf4;\n            border: 1px solid #bbf7d0;\n            border-radius: 8px;\n            padding: 16px;\n            margin-bottom: 24px;\n        \x7d\n        .close-text \x7b\n            font-size: 14px;\n            color: #166534;\n            display: flex;\n            align-items: center;\n            justify-content: center;\n            gap: 8px;\n        \x7d\n        .spinner \x7b\n            width: 16px;\n            height: 16px;\n            border: 2px solid #bbf7d0;\n            border-top-color: #22c55e;\n            border-radius: 50%;\n            animation: spin 1s linear infinite;\n        \x7d\n        @keyframes spin \x7b\n            to \x7b transform: rotate(360deg); \x7d\n        \x7d\n        .button \x7b\n            display: inline-block;\n            padding: 14px 28px;\n            font-size: 16px;\n            font-weight: 600;\n            text-decoration: none;\n            border-radius: 8px;\n            transition: all 0.2s ease;\n            cursor: pointer;\n            border: none;\n            background: #3b82f6;\n            color: white;\n        \x7d\n        .button:hover \x7b\n            background: #2563eb;\n            transform: translateY(-1px);\n            box-shadow: 0 4px 12px rgba(59, 130, 246, 0.4);\n        \x7d\n        .footer \x7b\n            font-size: 14px;\n            color: #9ca3af;\n            margin-top: 32px;\n        \x7d\n        @media (max-width: 640px) \x7b\n            .container \x7b padding: 32px 24px; \x7d\n            h1 \x7b font-size: 22px; \x7d\n            .success-icon \x7b font-size: 56px; \x7d\n        \x7d\n    </style>\n</head>\n<body>\n    <div class=\"container\">\n        <div class=\"success-icon\">✅</div>\n        <h1>Autoryzacja zakończona!</h1>\n        <p class=\"message\">\n            Pomyślnie zalogowano jako<br>\n            <span class=\"email\">"

def oauthSeg1 : String :=
  "</span>\n        </p>\n        <div class=\"close-info\">\n            <div class=\"close-text\">\n                <div class=\"spinner\"></div>\n                <span>Przekierowanie do aplikacji...</span>\n            </div>\n        </div>\n        <p class=\"message\" style=\"margin-bottom: 16px; font-size: 14px;\">\n            Możesz zamknąć to okno po przekierowaniu.\n        </p>\n        <a href=\""

def oauthSeg2 : String :=
  "\" class=\"button\">\n            Kontynuuj\n        </a>\n        <div class=\"footer\">\n            © 2025 wtyczki.ai\n        </div>\n    </div>\n    <script>\n        (function() \x7b\n            var redirected = false;\n            var btn = document.querySelector(\x27.button\x27);\n            var closeText = document.querySelector(\x27.close-text span\x27);\n            var spinner = document.querySelector(\x27.spinner\x27);\n\n            // Auto-redirect after delay\n            setTimeout(function() \x7b\n                redirected = true;\n                // Update UI to show redirect happened\n                if (btn) btn.style.display = \x27none\x27;\n                if (closeText) closeText.textContent = \x27Przekierowano! Możesz zamknąć to okno.\x27;\n                if (spinner) spinner.style.display = \x27none\x27;\n                // Perform redirect\n                window.location.href = \x27"

def oauthSeg3 : String :=
  "\x27;\n            \x7d, "

def oauthSeg4 : String :=
  ");\n\n            // Prevent button click if already redirected (one-time use OAuth code)\n            if (btn) \x7b\n                btn.addEventListener(\x27click\x27, function(e) \x7b\n                    if (redirected) \x7b\n                        e.preventDefault();\n                        alert(\x27Przekierowanie już nastąpiło. Możesz zamknąć to okno.\x27);\n                    \x7d\n                \x7d);\n            \x7d\n        \x7d)();\n    </script>\n</body>\n</html>"

/-- tokenUtils.ts `formatOAuthSuccessPage`: the template literal with
`escapeHtml(userEmail)` in the confirmation span, `escapeHtml(redirectUrl)` in
the button's href attribute, `escapeJs(redirectUrl)` in the single-quoted
JavaScript string assigned to `window.location.href`, and the numeric
`redirectDelay` as the setTimeout delay (the source defaults it to 2000). -/
def formatOAuthSuccessPage (userEmail redirectUrl : String) (redirectDelay : Nat) : String :=
  oauthSeg0 ++ escapeHtml userEmail ++ oauthSeg1 ++ escapeHtml redirectUrl
    ++ oauthSeg2 ++ escapeJs redirectUrl ++ oauthSeg3 ++ toString redirectDelay
    ++ oauthSeg4

/-! ## The LRU server cache (src/src/api-key-handler.ts lines 63-158)

A JavaScript `Map` preserves insertion order: `set` of an existing key updates
the entry in place, `set` of a fresh key appends, and `delete` removes the
entry.  The cache is embedded as an ordered association list together with the
fixed `maxSize`; `Date.now()` readings enter as explicit `now` arguments.  The
`evictLRU` loop's `oldestKey`/`oldestTime` accumulator pair is `evictGo`'s
`Option` arguments (`none` playing `undefined`/`Infinity`). -/

/-- A cache entry: the stored value and its last-access timestamp. -/
structure CacheEntry (V : Type) where
  value : V
  lastAccessed : Nat
deriving DecidableEq

/-- The LRUCache: its insertion-ordered entry map and capacity. -/
structure LRUCache (K V : Type) where
  cache : List (K × CacheEntry V)
  maxSize : Nat
deriving DecidableEq

/-- `new LRUCache(maxSize)`: empty map. -/
def LRUCache.empty (K V : Type) (maxSize : Nat) : LRUCache K V := ⟨[], maxSize⟩

variable {K V : Type}

/-- `Map.get`: the entry stored under a key, if any. -/
def lookupEntry [DecidableEq K] : List (K × CacheEntry V) → K → Option (CacheEntry V)
  | [], _ => none
  | p :: rest, k => if p.1 = k then some p.2 else lookupEntry rest k

/-- `Map.set` on a present key: replace the entry in place, preserving the
map's insertion order. -/
def updateEntry [DecidableEq K] :
    List (K × CacheEntry V) → K → CacheEntry V → List (K × CacheEntry V)
  | [], _, _ => []
  | p :: rest, k, e => if p.1 = k then (k, e) :: rest else p :: updateEntry rest k e

/-- `Map.has`. -/
def hasKeyL [DecidableEq K] (l : List (K × CacheEntry V)) (k : K) : Bool :=
  (lookupEntry l k).isSome

/-- The keys of the entry list, in iteration order. -/
def keysOf (l : List (K × CacheEntry V)) : List K := l.map Prod.fst

/-- `LRUCache.get` (api-key-handler.ts lines 75-83): on a hit, the entry's
last-access time is set to `now` and its value returned. -/
def LRUCache.get [DecidableEq K] (c : LRUCache K V) (k : K) (now : Nat) :
    Option V × LRUCache K V :=
  match lookupEntry c.cache k with
  | some e => (some e.value, ⟨updateEntry c.cache k ⟨e.value, now⟩, c.maxSize⟩)
  | none => (none, c)

/-- The `evictLRU` scan (api-key-handler.ts lines 117-127): walk the entries
in iteration order keeping the key with the strictly smallest last-access
time seen so far (`bt = none` is the initial `oldestTime = Infinity`). -/
def evictGo [DecidableEq K] :
    List (K × CacheEntry V) → Option K → Option Nat → Option K × Option Nat
  | [], bk, bt => (bk, bt)
  | p :: rest, bk, bt =>
    match bt with
    | none => evictGo rest (some p.1) (some p.2.lastAccessed)
    | some t =>
      if p.2.lastAccessed < t then evictGo rest (some p.1) (some p.2.lastAccessed)
      else evictGo rest bk (some t)

/-- `Map.delete`: remove the entry stored under a key. -/
def eraseKey [DecidableEq K] : List (K × CacheEntry V) → K → List (K × CacheEntry V)
  | [], _ => []
  | p :: rest, k => if p.1 = k then rest else p :: eraseKey rest k

/-- `LRUCache.evictLRU` (api-key-handler.ts lines 117-133): delete the entry
found by the scan, if any. -/
def LRUCache.evictLRU [DecidableEq K] (c : LRUCache K V) : LRUCache K V :=
  match (evictGo c.cache none none).1 with
  | none => c
  | some k => ⟨eraseKey c.cache k, c.maxSize⟩

/-- `Map.set`: update in place if present, append if fresh. -/
def mapSet [DecidableEq K] (l : List (K × CacheEntry V)) (k : K) (e : CacheEntry V) :
    List (K × CacheEntry V) :=
  if hasKeyL l k then updateEntry l k e else l ++ [(k, e)]

/-- `LRUCache.set` (api-key-handler.ts lines 88-98): evict the least recently
used entry when the cache is full and the key is new, then store the value
with `now` as its last-access time. -/
def LRUCache.set [DecidableEq K] (c : LRUCache K V) (k : K) (v : V) (now : Nat) :
    LRUCache K V :=
  let c1 := if decide (c.maxSize ≤ c.cache.length) && !(hasKeyL c.cache k)
            then c.evictLRU else c
  ⟨mapSet c1.cache k ⟨v, now⟩, c1.maxSize⟩

/-- One cache operation with its `Date.now()` reading. -/
inductive CacheOp (K V : Type) where
  | get (k : K) (now : Nat)
  | set (k : K) (v : V) (now : Nat)
deriving DecidableEq

/-- Apply one operation, keeping the resulting cache. -/
def applyOp [DecidableEq K] (c : LRUCache K V) : CacheOp K V → LRUCache K V
  | .get k now => (c.get k now).2
  | .set k v now => c.set k v now

/-- Run a sequence of cache operations. -/
def runOps [DecidableEq K] (c : LRUCache K V) : List (CacheOp K V) → LRUCache K V
  | [] => c
  | op :: rest => runOps (applyOp c op) rest

/-! ## Theorems -/

theorem findEvent_none_countEvents (st : LedgerState) (key : String)
    (h : findEvent st key = none) : countEvents st key = 0 := by
  unfold findEvent at h
  unfold countEvents
  rw [List.length_eq_zero, List.filter_eq_nil_iff]
  intro e he
  have := List.find?_eq_none.mp h e he
  simpa using this

/-- C1: Idempotent replay of the ledger.  If a UsageEvent already exists for
an idempotency key, `consume` returns the previously committed result without
re-debiting; calling `consume` twice sequentially with the same idempotency
key returns the same result (hence the same newBalance) both times and the
second call leaves the state untouched; per idempotency key at most one
UsageEvent is ever committed and a state that already holds an event for the
key is never changed again (at most one debit). -/
theorem consume_idempotent_replay :
    (∀ (st : LedgerState) (id : String) (c : Nat) (k op m : String) (e : UsageEvent),
      findEvent st k = some e → consume st id c k op m = (.ok ⟨true, e.newBalance⟩, st))
    ∧ (∀ (st : LedgerState) (id : String) (c : Nat) (k op m : String)
        (r : ConsumeOk) (st₁ : LedgerState),
      consume st id c k op m = (.ok r, st₁) → consume st₁ id c k op m = (.ok r, st₁))
    ∧ (∀ (st : LedgerState) (id : String) (c : Nat) (k op m : String),
      countEvents st k ≤ 1 → countEvents (consume st id c k op m).2 k ≤ 1)
    ∧ (∀ (st : LedgerState) (id : String) (c : Nat) (k op m : String),
      1 ≤ countEvents st k → (consume st id c k op m).2 = st) := by
  refine ⟨?_, ?_, ?_, ?_⟩
  · intro st id c k op m e h
    simp [consume, h]
  · intro st id c k op m r st₁ h
    unfold consume at h
    cases hf : findEvent st k with
    | some e =>
      rw [hf] at h
      obtain ⟨hr, hst⟩ := Prod.mk.injEq .. ▸ h
      simp only [ConsumeOutcome.ok.injEq] at hr
      subst hst
      simp [consume, hf, ← hr]
    | none =>
      rw [hf] at h
      simp only at h
      by_cases hb : getBalance st id < c
      · simp [hb] at h
      · simp only [hb, if_false] at h
        obtain ⟨hr, hst⟩ := Prod.mk.injEq .. ▸ h
        simp only [ConsumeOutcome.ok.injEq] at hr
        subst hst
        have hfind : findEvent
            { balances := setBalance st.balances id (getBalance st id - c),
              events := { identity := id, operation := op, cost := c,
                          idempotencyKey := k, metadata := m,
                          newBalance := getBalance st id - c } :: st.events } k =
            some { identity := id, operation := op, cost := c,
                   idempotencyKey := k, metadata := m,
                   newBalance := getBalance st id - c } := by
          unfold findEvent
          simp [List.find?]
        simp [consume, hfind, ← hr]
  · intro st id c k op m h
    unfold consume
    cases hf : findEvent st k with
    | some e => simpa using h
    | none =>
      by_cases hb : getBalance st id < c
      · simpa [hb] using h
      · have h0 : countEvents st k = 0 := findEvent_none_countEvents st k hf
        simp only [hb, if_false]
        unfold countEvents at h0 ⊢
        simp [List.filter, h0]
  · intro st id c k op m h
    unfold consume
    cases hf : findEvent st k with
    | some e => simp
    | none =>
      exfalso
      have h0 : countEvents st k = 0 := findEvent_none_countEvents st k hf
      omega

/-- Witness for C1 at a concrete ledger: identity "u1" with balance 5, cost 1,
key "k1"; the second `consume` with the same key replays the result
`{committed := true, newBalance := 4}` and leaves the state unchanged. -/
theorem consume_idempotent_replay_witness :
    consume { balances := [("u1", 4)],
              events := [{ identity := "u1", operation := "search_mcp_docs", cost := 1,
                           idempotencyKey := "k1", metadata := "q",
                           newBalance := 4 }] } "u1" 1 "k1" "search_mcp_docs" "q" =
      (.ok ⟨true, 4⟩,
       { balances := [("u1", 4)],
         events := [{ identity := "u1", operation := "search_mcp_docs", cost := 1,
                      idempotencyKey := "k1", metadata := "q",
                      newBalance := 4 }] }) :=
  consume_idempotent_replay.2.1
    { balances := [("u1", 5)], events := [] } "u1" 1 "k1" "search_mcp_docs" "q"
    ⟨true, 4⟩
    { balances := [("u1", 4)],
      events := [{ identity := "u1", operation := "search_mcp_docs", cost := 1,
                   idempotencyKey := "k1", metadata := "q",
                   newBalance := 4 }] }
    (by decide)

theorem searchPostProcess_consumeCalls (env : ToolEnv) (q a resp : String) :
    (searchPostProcess env q a resp).consumeCalls = []
    ∨ (searchPostProcess env q a resp).consumeCalls = [a] := by
  unfold searchPostProcess
  cases hv : (env.validate (if env.hasPII (env.sanitize resp) = true
      then env.redact (env.sanitize resp) else (env.sanitize resp, [])).1).valid
  · simp [hv]
  · cases hc : env.consumeResult <;> simp [hv, hc]

theorem searchMcpDocs_consumeCalls (env : ToolEnv) (q a : String) :
    (searchMcpDocs env q a).consumeCalls = [] ∨ (searchMcpDocs env q a).consumeCalls = [a] := by
  unfold searchMcpDocs
  repeat' split
  all_goals first | simp | apply searchPostProcess_consumeCalls

/-- C2: No debit on call failure.  Whenever an invocation of the
search_mcp_docs handler reaches the billed AI-search call and that call
throws, the handler returns an error outcome and never calls
consumeTokensWithRetry, so the balance is unchanged. -/
theorem search_no_debit_on_call_failure (env : ToolEnv) (query actionId uid msg : String)
    (bc : BalanceCheck) (hu : env.userId = some uid) (hb : env.balanceCheck = .ok bc)
    (hs : bc.sufficient = true) (hai : env.aiConfigured = true)
    (hfail : env.aiSearch query = .error msg) :
    (searchMcpDocs env query actionId).isError = true
    ∧ (searchMcpDocs env query actionId).consumeCalls = [] := by
  simp [searchMcpDocs, hu, hb, hs, hai, hfail]

/-- Witness for C2: a concrete environment whose AI-search call throws
"boom"; the handler reports an error and logs no consumption call. -/
theorem search_no_debit_on_call_failure_witness :
    (searchMcpDocs envCallFails "q" "a1").isError = true
    ∧ (searchMcpDocs envCallFails "q" "a1").consumeCalls = [] :=
  search_no_debit_on_call_failure envCallFails "q" "a1" "u1" "boom" ⟨true, 5⟩
    rfl rfl rfl rfl rfl

/-- C3: No bill on insufficient balance.  Whenever the balance check of a
search_mcp_docs invocation reports `sufficient = false`, the handler returns
the insufficient-balance error outcome, never invokes the billed AI-search
operation and never calls consumeTokensWithRetry. -/
theorem search_no_bill_on_insufficient_balance (env : ToolEnv)
    (query actionId uid : String) (bc : BalanceCheck)
    (hu : env.userId = some uid) (hb : env.balanceCheck = .ok bc)
    (hs : bc.sufficient = false) :
    (searchMcpDocs env query actionId).isError = true
    ∧ (searchMcpDocs env query actionId).aiCalls = []
    ∧ (searchMcpDocs env query actionId).consumeCalls = []
    ∧ (searchMcpDocs env query actionId).text
        = formatInsufficientTokensError "search_mcp_docs" bc.currentBalance 1 := by
  simp [searchMcpDocs, hu, hb, hs]

/-- Witness for C3: with balance 0 and cost 1 the handler stops at the
balance gate. -/
theorem search_no_bill_on_insufficient_balance_witness :
    (searchMcpDocs envBroke "q" "a1").isError = true
    ∧ (searchMcpDocs envBroke "q" "a1").aiCalls = []
    ∧ (searchMcpDocs envBroke "q" "a1").consumeCalls = []
    ∧ (searchMcpDocs envBroke "q" "a1").text
        = formatInsufficientTokensError "search_mcp_docs" 0 1 :=
  search_no_bill_on_insufficient_balance envBroke "q" "a1" "u1" ⟨false, 0⟩ rfl rfl rfl

/-- C4: One idempotency key per invocation.  Every consumption call an
invocation makes carries exactly the actionId minted for that invocation (and
there is at most one such call), so two invocations with distinct actionIds
never share a key. -/
theorem search_single_idempotency_key (env env2 : ToolEnv) (q q2 a a2 : String)
    (hne : a ≠ a2) :
    ((searchMcpDocs env q a).consumeCalls = [] ∨ (searchMcpDocs env q a).consumeCalls = [a])
    ∧ List.Disjoint (searchMcpDocs env q a).consumeCalls
        (searchMcpDocs env2 q2 a2).consumeCalls := by
  refine ⟨searchMcpDocs_consumeCalls env q a, ?_⟩
  intro x hx hx2
  rcases searchMcpDocs_consumeCalls env q a with h1 | h1 <;> rw [h1] at hx
  · simp at hx
  · rcases searchMcpDocs_consumeCalls env2 q2 a2 with h2 | h2 <;> rw [h2] at hx2
    · simp at hx2
    · simp only [List.mem_singleton] at hx hx2
      exact hne (hx ▸ hx2 ▸ rfl)

/-- Witness for C4: two concrete invocations with keys "a1" and "a2" log
disjoint consumption-key lists. -/
theorem search_single_idempotency_key_witness :
    ((searchMcpDocs envCallFails "q" "a1").consumeCalls = []
      ∨ (searchMcpDocs envCallFails "q" "a1").consumeCalls = ["a1"])
    ∧ List.Disjoint (searchMcpDocs envCallFails "q" "a1").consumeCalls
        (searchMcpDocs envGenericError "q" "a2").consumeCalls :=
  search_single_idempotency_key envCallFails envGenericError "q" "q" "a1" "a2" (by decide)

/-- C8 counterexample: the thrown message "AutoRAG instance map-docs is still
indexing" contains "indexing", yet the handler yields the instance-not-found
outcome, not the still-indexing outcome — the claim's unconditional "every
error whose message contains 'indexing' yields the still-indexing outcome" is
false. -/
theorem error_classification_precedence_cex :
    strContains "AutoRAG instance map-docs is still indexing" "indexing" = true
    ∧ (searchMcpDocs envBothSubstrings "q" "a1").text = ragNotFoundText
    ∧ ragNotFoundText ≠ stillIndexingText := by
  refine ⟨by decide, by decide, by decide⟩

/-- C8 (amended): in the search_mcp_docs failure handler every thrown error is
classified purely by substrings of its message, with the instance-not-found
check taking precedence: messages containing "AI Search instance not found"
or "AutoRAG instance" yield the instance-not-found outcome; otherwise
messages containing "indexing" yield the still-indexing outcome; every other
message yields the generic failure text embedding the message. -/
theorem error_classified_by_substrings (env : ToolEnv)
    (query actionId uid msg : String) (bc : BalanceCheck)
    (hu : env.userId = some uid) (hb : env.balanceCheck = .ok bc)
    (hs : bc.sufficient = true) (hai : env.aiConfigured = true)
    (hfail : env.aiSearch query = .error msg) :
    (searchMcpDocs env query actionId).isError = true
    ∧ (searchMcpDocs env query actionId).text =
      (if strContains msg "AI Search instance not found" || strContains msg "AutoRAG instance"
       then ragNotFoundText
       else if strContains msg "indexing" then stillIndexingText
       else genericFailText msg) := by
  simp [searchMcpDocs, hu, hb, hs, hai, hfail, classifyCatch]

/-- Witness for C8: a message matching no known substring is embedded in the
generic failure text. -/
theorem error_classified_by_substrings_witness :
    (searchMcpDocs envGenericError "q" "a1").isError = true
    ∧ (searchMcpDocs envGenericError "q" "a1").text =
      (if strContains "socket hang up" "AI Search instance not found"
          || strContains "socket hang up" "AutoRAG instance"
       then ragNotFoundText
       else if strContains "socket hang up" "indexing" then stillIndexingText
       else genericFailText "socket hang up") :=
  error_classified_by_substrings envGenericError "q" "a1" "u1" "socket hang up"
    ⟨true, 5⟩ rfl rfl rfl rfl rfl


theorem getUserByEmail_not_deleted (db : List DatabaseUser) (email : String)
    (u : DatabaseUser) (h : getUserByEmail db email = some u) :
    u.is_deleted = 0 ∧ u.email = email := by
  unfold getUserByEmail at h
  have hp := List.find?_some h
  simp only [Bool.and_eq_true, beq_iff_eq] at hp
  exact ⟨hp.2, hp.1⟩

theorem getUserById_not_deleted (db : List DatabaseUser) (userId : String)
    (u : DatabaseUser) (h : getUserById db userId = some u) :
    u.is_deleted = 0 ∧ u.user_id = userId := by
  unfold getUserById at h
  have hp := List.find?_some h
  simp only [Bool.and_eq_true, beq_iff_eq] at hp
  exact ⟨hp.2, hp.1⟩

/-- C9: Deleted accounts are never authenticated.  Both user lookups only ever
return records with `is_deleted = 0`; when the lookup returns nothing the
API-key path answers 404 without creating or caching a server; and the OAuth
callback's defensive gate answers the 403 account-deleted page for any record
with `is_deleted = 1`. -/
theorem deleted_user_never_authenticated :
    (∀ (db : List DatabaseUser) (email : String) (u : DatabaseUser),
      getUserByEmail db email = some u → u.is_deleted = 0)
    ∧ (∀ (db : List DatabaseUser) (userId : String) (u : DatabaseUser),
      getUserById db userId = some u → u.is_deleted = 0)
    ∧ (∀ (env : ApiKeyEnv) (pathname h userId : String),
      env.authHeader = some h → bearerToken h ≠ "" →
      env.validateKey (bearerToken h) = some userId →
      getUserById env.db userId = none →
      handleApiKeyRequest env pathname = ⟨404, none⟩)
    ∧ (∀ u : DatabaseUser, u.is_deleted = 1 → callbackGate (some u) = .accountDeleted) := by
  refine ⟨?_, ?_, ?_, ?_⟩
  · intro db email u h
    exact (getUserByEmail_not_deleted db email u h).1
  · intro db userId u h
    exact (getUserById_not_deleted db userId u h).1
  · intro env pathname h userId hh hk hv hu
    simp [handleApiKeyRequest, hh, hk, hv, hu]
  · intro u h
    simp [callbackGate, h]

/-- Witness for C9: a concrete table holding one active and one deleted user;
the lookup of the active user reports `is_deleted = 0`, an API key resolving
to an unknown or deleted user id draws a 404 with no server cached, and the
callback gate rejects a deleted record. -/
theorem deleted_user_never_authenticated_witness :
    (⟨"u1", "a@b.c", none, "2024", 0⟩ : DatabaseUser).is_deleted = 0
    ∧ handleApiKeyRequest
        { authHeader := some "Bearer wtyk_k1",
          validateKey := fun k => if k = "wtyk_k1" then some "u2" else none,
          db := [⟨"u1", "a@b.c", none, "2024", 0⟩, ⟨"u2", "c@d.e", none, "2024", 1⟩] }
        "/mcp" = ⟨404, none⟩
    ∧ callbackGate (some ⟨"u2", "c@d.e", none, "2024", 1⟩) = .accountDeleted := by
  refine ⟨?_, ?_, ?_⟩
  · exact deleted_user_never_authenticated.1
      [⟨"u1", "a@b.c", none, "2024", 0⟩] "a@b.c" ⟨"u1", "a@b.c", none, "2024", 0⟩ (by decide)
  · exact deleted_user_never_authenticated.2.2.1
      { authHeader := some "Bearer wtyk_k1",
        validateKey := fun k => if k = "wtyk_k1" then some "u2" else none,
        db := [⟨"u1", "a@b.c", none, "2024", 0⟩, ⟨"u2", "c@d.e", none, "2024", 1⟩] }
      "/mcp" "Bearer wtyk_k1" "u2" rfl (by decide) (by decide) (by decide)
  · exact deleted_user_never_authenticated.2.2.2 ⟨"u2", "c@d.e", none, "2024", 1⟩ rfl

theorem not_mem_replaceAllChar_self (c : Char) (rep l : List Char) (h : c ∉ rep) :
    c ∉ replaceAllChar c rep l := by
  induction l with
  | nil => simp [replaceAllChar]
  | cons d rest ih =>
    unfold replaceAllChar
    by_cases hd : d = c
    · simp only [hd, if_true]
      intro hmem
      rcases List.mem_append.mp hmem with h1 | h1
      · exact h h1
      · exact ih h1
    · simp only [hd, if_false]
      intro hmem
      rcases List.mem_cons.mp hmem with h1 | h1
      · exact hd h1.symm
      · exact ih h1

theorem not_mem_replaceAllChar (g c : Char) (rep l : List Char) (hrep : g ∉ rep) :
    g ∉ l → g ∉ replaceAllChar c rep l := by
  induction l with
  | nil => intro _; simp [replaceAllChar]
  | cons d rest ih =>
    intro hl
    have hg : g ∉ rest := fun hm => hl (List.mem_cons_of_mem d hm)
    have hgd : g ≠ d := fun he => hl (he ▸ List.mem_cons_self d rest)
    unfold replaceAllChar
    by_cases hd : d = c
    · simp only [hd, if_true]
      intro hmem
      rcases List.mem_append.mp hmem with h1 | h1
      · exact hrep h1
      · exact ih hg h1
    · simp only [hd, if_false]
      intro hmem
      rcases List.mem_cons.mp hmem with h1 | h1
      · exact hgd h1
      · exact ih hg h1

theorem count_replaceAllChar (g c : Char) (rep l : List Char) (hgc : g ≠ c)
    (hrep : g ∉ rep) : (replaceAllChar c rep l).count g = l.count g := by
  induction l with
  | nil => simp [replaceAllChar]
  | cons d rest ih =>
    unfold replaceAllChar
    by_cases hd : d = c
    · rw [if_pos hd, List.count_append, ih, List.count_eq_zero.mpr hrep, hd,
        List.count_cons]
      simp [Ne.symm hgc]
    · rw [if_neg hd, List.count_cons, List.count_cons, ih]

theorem escapeHtml_no_lt (s : String) : '<' ∉ (escapeHtml s).data := by
  unfold escapeHtml
  show '<' ∉ replaceAllChar '\'' "&#039;".data _
  apply not_mem_replaceAllChar _ _ _ _ (by decide)
  apply not_mem_replaceAllChar _ _ _ _ (by decide)
  apply not_mem_replaceAllChar _ _ _ _ (by decide)
  exact not_mem_replaceAllChar_self _ _ _ (by decide)

theorem escapeHtml_count_lt (s : String) : (escapeHtml s).data.count '<' = 0 :=
  List.count_eq_zero.mpr (escapeHtml_no_lt s)

theorem escapeJs_count_lt (s : String) :
    (escapeJs s).data.count '<' = s.data.count '<' := by
  unfold escapeJs
  show (replaceAllChar '\r' "\\r".data _).count '<' = _
  rw [count_replaceAllChar _ _ _ _ (by decide) (by decide),
    count_replaceAllChar _ _ _ _ (by decide) (by decide),
    count_replaceAllChar _ _ _ _ (by decide) (by decide),
    count_replaceAllChar _ _ _ _ (by decide) (by decide),
    count_replaceAllChar _ _ _ _ (by decide) (by decide)]

theorem segOccurs_singleton (c : Char) (l : List Char) :
    segOccurs [c] l = true ↔ c ∈ l := by
  induction l with
  | nil => simp [segOccurs]
  | cons d rest ih =>
    simp [segOccurs, List.isPrefixOf, ih]

/-- C10 counterexample: `escapeJs` leaves the input
"</script><script>alert(1)</script>" entirely unchanged, and the OAuth
success page built from that redirectUrl contains exactly three more
unescaped `<` characters than the page built from a `<`-free redirectUrl —
the input's `<` characters reach the output inside the script element, where
"</script>" terminates it. -/
theorem escapejs_script_breakout_cex :
    escapeJs "</script><script>alert(1)</script>" = "</script><script>alert(1)</script>"
    ∧ (formatOAuthSuccessPage "user@example.com" "</script><script>alert(1)</script>" 2000).data.count '<'
      = (formatOAuthSuccessPage "user@example.com" "https://example.com/cb" 2000).data.count '<' + 3 := by
  constructor
  · decide
  · unfold formatOAuthSuccessPage
    simp only [String.data_append, List.count_append, escapeHtml_count_lt,
      escapeJs_count_lt]
    have hmal : ("</script><script>alert(1)</script>".data).count '<' = 3 := by decide
    have hben : ("https://example.com/cb".data).count '<' = 0 := by decide
    rw [hmal, hben]
    omega

/-- C10 (amended): each interpolation of userEmail and redirectUrl into the
OAuth success page passes through escapeHtml or escapeJs; escapeHtml output
never contains `<`, so the HTML-context interpolations cannot open a tag; but
escapeJs preserves every `<` of its input unchanged, so a redirectUrl
containing "</script>" reaches the script element verbatim and can terminate
it. -/
theorem oauth_escaping_properties :
    (∀ s : String, strContains (escapeHtml s) "<" = false)
    ∧ (∀ s : String, (escapeJs s).data.count '<' = s.data.count '<') := by
  constructor
  · intro s
    unfold strContains
    rw [Bool.eq_false_iff]
    intro h
    exact escapeHtml_no_lt s ((segOccurs_singleton '<' (escapeHtml s).data).mp h)
  · exact escapeJs_count_lt

theorem hasKeyL_iff_mem_keysOf [DecidableEq K] (l : List (K × CacheEntry V)) (k : K) :
    hasKeyL l k = true ↔ k ∈ keysOf l := by
  induction l with
  | nil => simp [hasKeyL, lookupEntry, keysOf]
  | cons p rest ih =>
    by_cases hp : p.1 = k
    · simp [hasKeyL, lookupEntry, keysOf, hp]
    · simp only [hasKeyL, lookupEntry, hp, if_false, keysOf, List.map_cons,
        List.mem_cons] at ih ⊢
      constructor
      · intro h
        exact Or.inr (ih.mp h)
      · intro h
        rcases h with h | h
        · exact absurd h.symm hp
        · exact ih.mpr h

theorem mem_keysOf_of_mem (l : List (K × CacheEntry V)) (q : K × CacheEntry V)
    (h : q ∈ l) : q.1 ∈ keysOf l :=
  List.mem_map_of_mem Prod.fst h

theorem hasKeyL_of_mem [DecidableEq K] (l : List (K × CacheEntry V))
    (q : K × CacheEntry V) (h : q ∈ l) : hasKeyL l q.1 = true :=
  (hasKeyL_iff_mem_keysOf l q.1).mpr (mem_keysOf_of_mem l q h)

theorem lookupEntry_mem [DecidableEq K] (l : List (K × CacheEntry V)) (k : K)
    (e : CacheEntry V) (h : lookupEntry l k = some e) : (k, e) ∈ l := by
  induction l with
  | nil => simp [lookupEntry] at h
  | cons p rest ih =>
    unfold lookupEntry at h
    by_cases hp : p.1 = k
    · rw [if_pos hp] at h
      injection h with h
      subst h
      subst hp
      simp
    · rw [if_neg hp] at h
      exact List.mem_cons_of_mem p (ih h)

theorem updateEntry_length [DecidableEq K] (l : List (K × CacheEntry V)) (k : K)
    (e : CacheEntry V) : (updateEntry l k e).length = l.length := by
  induction l with
  | nil => rfl
  | cons p rest ih =>
    unfold updateEntry
    by_cases hp : p.1 = k <;> simp [hp, ih]

theorem updateEntry_keysOf [DecidableEq K] (l : List (K × CacheEntry V)) (k : K)
    (e : CacheEntry V) : keysOf (updateEntry l k e) = keysOf l := by
  induction l with
  | nil => rfl
  | cons p rest ih =>
    unfold updateEntry
    by_cases hp : p.1 = k
    · simp [keysOf, hp]
    · simp only [keysOf, List.map_cons] at ih ⊢
      rw [if_neg hp, List.map_cons, ih]

theorem lookupEntry_updateEntry_self [DecidableEq K] (l : List (K × CacheEntry V))
    (k : K) (e : CacheEntry V) (h : hasKeyL l k = true) :
    lookupEntry (updateEntry l k e) k = some e := by
  induction l with
  | nil => simp [hasKeyL, lookupEntry] at h
  | cons p rest ih =>
    unfold updateEntry
    by_cases hp : p.1 = k
    · rw [if_pos hp]
      simp [lookupEntry]
    · rw [if_neg hp]
      unfold lookupEntry
      rw [if_neg hp]
      apply ih
      simpa [hasKeyL, lookupEntry, hp] using h

theorem mem_updateEntry_of_ne [DecidableEq K] (l : List (K × CacheEntry V)) (k : K)
    (e : CacheEntry V) (q : K × CacheEntry V) (hq : q ∈ updateEntry l k e)
    (hne : q.1 ≠ k) : q ∈ l := by
  induction l with
  | nil => simpa [updateEntry] using hq
  | cons p rest ih =>
    unfold updateEntry at hq
    by_cases hp : p.1 = k
    · rw [if_pos hp] at hq
      rcases List.mem_cons.mp hq with h | h
      · exact absurd (by rw [h]) hne
      · exact List.mem_cons_of_mem p h
    · rw [if_neg hp] at hq
      rcases List.mem_cons.mp hq with h | h
      · exact h ▸ List.mem_cons_self p rest
      · exact List.mem_cons_of_mem p (ih h)

theorem updateEntry_mem_of_ne [DecidableEq K] (l : List (K × CacheEntry V)) (k : K)
    (e : CacheEntry V) (q : K × CacheEntry V) (hq : q ∈ l) (hne : q.1 ≠ k) :
    q ∈ updateEntry l k e := by
  induction l with
  | nil => simpa using hq
  | cons p rest ih =>
    unfold updateEntry
    rcases List.mem_cons.mp hq with h | h
    · rw [← h, if_neg hne]
      exact List.mem_cons_self q (updateEntry rest k e)
    · by_cases hp : p.1 = k
      · rw [if_pos hp]
        exact List.mem_cons_of_mem _ h
      · rw [if_neg hp]
        exact List.mem_cons_of_mem _ (ih h)

theorem eraseKey_length [DecidableEq K] (l : List (K × CacheEntry V)) (k : K)
    (h : hasKeyL l k = true) : (eraseKey l k).length + 1 = l.length := by
  induction l with
  | nil => simp [hasKeyL, lookupEntry] at h
  | cons p rest ih =>
    unfold eraseKey
    by_cases hp : p.1 = k
    · simp [hp]
    · rw [if_neg hp]
      simp only [List.length_cons]
      rw [← ih (by simpa [hasKeyL, lookupEntry, hp] using h)]

theorem hasKeyL_eraseKey_imp [DecidableEq K] (l : List (K × CacheEntry V)) (k0 k : K)
    (h : hasKeyL (eraseKey l k0) k = true) : hasKeyL l k = true := by
  induction l with
  | nil => simpa [eraseKey] using h
  | cons p rest ih =>
    unfold eraseKey at h
    by_cases hp : p.1 = k0
    · rw [if_pos hp] at h
      by_cases hk : p.1 = k
      · simp [hasKeyL, lookupEntry, hk]
      · simpa [hasKeyL, lookupEntry, hk] using h
    · rw [if_neg hp] at h
      by_cases hk : p.1 = k
      · simp [hasKeyL, lookupEntry, hk]
      · simp only [hasKeyL, lookupEntry, hk, if_false] at h ⊢
        exact ih h

theorem eraseKey_append_first [DecidableEq K] (pre : List (K × CacheEntry V))
    (p : K × CacheEntry V) (post : List (K × CacheEntry V))
    (h : ∀ q ∈ pre, q.1 ≠ p.1) :
    eraseKey (pre ++ p :: post) p.1 = pre ++ post := by
  induction pre with
  | nil => simp [eraseKey]
  | cons q pre ih =>
    have hq : q.1 ≠ p.1 := h q (List.mem_cons_self q pre)
    simp only [List.cons_append]
    unfold eraseKey
    rw [if_neg hq, ih (fun r hr => h r (List.mem_cons_of_mem q hr))]

theorem hasKeyL_append [DecidableEq K] (l1 l2 : List (K × CacheEntry V)) (k : K) :
    hasKeyL (l1 ++ l2) k = (hasKeyL l1 k || hasKeyL l2 k) := by
  induction l1 with
  | nil => simp [hasKeyL, lookupEntry]
  | cons p rest ih =>
    by_cases hp : p.1 = k
    · simp [hasKeyL, lookupEntry, hp]
    · simp only [List.cons_append, hasKeyL, lookupEntry, hp, if_false] at ih ⊢
      exact ih

theorem hasKeyL_singleton_ne [DecidableEq K] (k0 k : K) (e : CacheEntry V)
    (h : k0 ≠ k) : hasKeyL [(k0, e)] k = false := by
  simp [hasKeyL, lookupEntry, h]

theorem nodup_key_unique (l : List (K × CacheEntry V)) :
    (keysOf l).Nodup → ∀ q1 q2 : K × CacheEntry V, q1 ∈ l → q2 ∈ l →
    q1.1 = q2.1 → q1 = q2 := by
  induction l with
  | nil =>
    intro _ q1 q2 h1
    simp at h1
  | cons p rest ih =>
    intro hnd q1 q2 h1 h2 hk
    simp only [keysOf, List.map_cons, List.nodup_cons] at hnd
    rcases List.mem_cons.mp h1 with ha | ha <;> rcases List.mem_cons.mp h2 with hb | hb
    · rw [ha, hb]
    · exfalso
      have hm : q2.1 ∈ rest.map Prod.fst := List.mem_map_of_mem Prod.fst hb
      rw [← hk, ha] at hm
      exact hnd.1 hm
    · exfalso
      have hm : q1.1 ∈ rest.map Prod.fst := List.mem_map_of_mem Prod.fst ha
      rw [hk, hb] at hm
      exact hnd.1 hm
    · exact ih hnd.2 q1 q2 ha hb hk

theorem evictGo_all_ge [DecidableEq K] (l : List (K × CacheEntry V)) :
    ∀ (k0 : K) (t0 : Nat), (∀ q ∈ l, t0 ≤ q.2.lastAccessed) →
    evictGo l (some k0) (some t0) = (some k0, some t0) := by
  induction l with
  | nil =>
    intro k0 t0 _
    rfl
  | cons p rest ih =>
    intro k0 t0 h
    have hp : ¬ p.2.lastAccessed < t0 := not_lt.mpr (h p (List.mem_cons_self p rest))
    simp only [evictGo]
    rw [if_neg hp]
    exact ih k0 t0 (fun q hq => h q (List.mem_cons_of_mem p hq))

theorem evictGo_exists_lt [DecidableEq K] (l : List (K × CacheEntry V)) :
    ∀ (k0 : K) (t0 : Nat), (∃ q ∈ l, q.2.lastAccessed < t0) →
    ∃ pre p post, l = pre ++ p :: post
      ∧ evictGo l (some k0) (some t0) = (some p.1, some p.2.lastAccessed)
      ∧ p.2.lastAccessed < t0
      ∧ (∀ q ∈ l, p.2.lastAccessed ≤ q.2.lastAccessed)
      ∧ (∀ q ∈ pre, p.2.lastAccessed < q.2.lastAccessed) := by
  induction l with
  | nil =>
    intro k0 t0 h
    simp at h
  | cons p rest ih =>
    intro k0 t0 h
    by_cases hp : p.2.lastAccessed < t0
    · by_cases hall : ∀ q ∈ rest, p.2.lastAccessed ≤ q.2.lastAccessed
      · refine ⟨[], p, rest, rfl, ?_, hp, ?_, by simp⟩
        · simp only [evictGo]
          rw [if_pos hp]
          exact evictGo_all_ge rest p.1 p.2.lastAccessed hall
        · intro q hq
          rcases List.mem_cons.mp hq with h1 | h1
          · simp [h1]
          · exact hall q h1
      · push_neg at hall
        obtain ⟨pre, pp, post, hdec, heval, hless, hmin, hfirst⟩ :=
          ih p.1 p.2.lastAccessed hall
        refine ⟨p :: pre, pp, post, by simp [hdec], ?_, lt_trans hless hp, ?_, ?_⟩
        · simp only [evictGo]
          rw [if_pos hp]
          exact heval
        · intro q hq
          rcases List.mem_cons.mp hq with h1 | h1
          · rw [h1]
            exact le_of_lt hless
          · exact hmin q h1
        · intro q hq
          rcases List.mem_cons.mp hq with h1 | h1
          · rw [h1]
            exact hless
          · exact hfirst q h1
    · have hrest : ∃ q ∈ rest, q.2.lastAccessed < t0 := by
        obtain ⟨q0, hq0, hlt⟩ := h
        rcases List.mem_cons.mp hq0 with h1 | h1
        · exact absurd (h1 ▸ hlt) hp
        · exact ⟨q0, h1, hlt⟩
      obtain ⟨pre, pp, post, hdec, heval, hless, hmin, hfirst⟩ := ih k0 t0 hrest
      have hple : t0 ≤ p.2.lastAccessed := not_lt.mp hp
      refine ⟨p :: pre, pp, post, by simp [hdec], ?_, hless, ?_, ?_⟩
      · simp only [evictGo]
        rw [if_neg hp]
        exact heval
      · intro q hq
        rcases List.mem_cons.mp hq with h1 | h1
        · rw [h1]
          exact le_of_lt (lt_of_lt_of_le hless hple)
        · exact hmin q h1
      · intro q hq
        rcases List.mem_cons.mp hq with h1 | h1
        · rw [h1]
          exact lt_of_lt_of_le hless hple
        · exact hfirst q h1

theorem evictGo_first_min [DecidableEq K] (l : List (K × CacheEntry V)) (hne : l ≠ []) :
    ∃ pre p post, l = pre ++ p :: post
      ∧ evictGo l none none = (some p.1, some p.2.lastAccessed)
      ∧ (∀ q ∈ l, p.2.lastAccessed ≤ q.2.lastAccessed)
      ∧ (∀ q ∈ pre, p.2.lastAccessed < q.2.lastAccessed) := by
  cases l with
  | nil => exact absurd rfl hne
  | cons p rest =>
    by_cases hall : ∀ q ∈ rest, p.2.lastAccessed ≤ q.2.lastAccessed
    · refine ⟨[], p, rest, rfl, ?_, ?_, by simp⟩
      · simp only [evictGo]
        exact evictGo_all_ge rest p.1 p.2.lastAccessed hall
      · intro q hq
        rcases List.mem_cons.mp hq with h1 | h1
        · simp [h1]
        · exact hall q h1
    · push_neg at hall
      obtain ⟨pre, pp, post, hdec, heval, hless, hmin, hfirst⟩ :=
        evictGo_exists_lt rest p.1 p.2.lastAccessed hall
      refine ⟨p :: pre, pp, post, by simp [hdec], ?_, ?_, ?_⟩
      · simp only [evictGo]
        exact heval
      · intro q hq
        rcases List.mem_cons.mp hq with h1 | h1
        · rw [h1]
          exact le_of_lt hless
        · exact hmin q h1
      · intro q hq
        rcases List.mem_cons.mp hq with h1 | h1
        · rw [h1]
          exact hless
        · exact hfirst q h1

theorem evictLRU_decomp [DecidableEq K] (c : LRUCache K V) (hne : c.cache ≠ [])
    (hnd : (keysOf c.cache).Nodup) :
    ∃ pre p post, c.cache = pre ++ p :: post
      ∧ (c.evictLRU).cache = pre ++ post
      ∧ (c.evictLRU).maxSize = c.maxSize
      ∧ (∀ q ∈ c.cache, p.2.lastAccessed ≤ q.2.lastAccessed)
      ∧ (∀ q ∈ pre, p.2.lastAccessed < q.2.lastAccessed) := by
  obtain ⟨pre, p, post, hdec, heval, hmin, hfirst⟩ := evictGo_first_min c.cache hne
  have hpre : ∀ q ∈ pre, q.1 ≠ p.1 := by
    intro q hq he
    rw [hdec] at hnd
    simp only [keysOf, List.map_append, List.map_cons] at hnd
    rcases List.nodup_append.mp hnd with ⟨_, _, hdisj⟩
    exact hdisj (he ▸ List.mem_map_of_mem Prod.fst hq) (List.mem_cons_self _ _)
  refine ⟨pre, p, post, hdec, ?_, ?_, hmin, hfirst⟩
  · unfold LRUCache.evictLRU
    rw [heval]
    show eraseKey c.cache p.1 = pre ++ post
    rw [hdec]
    exact eraseKey_append_first pre p post hpre
  · unfold LRUCache.evictLRU
    rw [heval]

theorem evictLRU_maxSize [DecidableEq K] (c : LRUCache K V) :
    (c.evictLRU).maxSize = c.maxSize := by
  unfold LRUCache.evictLRU
  cases hev : (evictGo c.cache none none).1 <;> rfl

theorem evictLRU_length [DecidableEq K] (c : LRUCache K V) (hne : c.cache ≠ []) :
    ((c.evictLRU).cache).length + 1 = c.cache.length := by
  obtain ⟨pre, p, post, hdec, heval, hmin, hfirst⟩ := evictGo_first_min c.cache hne
  unfold LRUCache.evictLRU
  rw [heval]
  show (eraseKey c.cache p.1).length + 1 = c.cache.length
  apply eraseKey_length
  apply hasKeyL_of_mem
  rw [hdec]
  exact List.mem_append_right pre (List.mem_cons_self p post)

theorem hasKeyL_evictLRU_false [DecidableEq K] (c : LRUCache K V) (k : K)
    (h : hasKeyL c.cache k = false) : hasKeyL (c.evictLRU).cache k = false := by
  unfold LRUCache.evictLRU
  cases hev : (evictGo c.cache none none).1 with
  | none => exact h
  | some k0 =>
    cases hh : hasKeyL (eraseKey c.cache k0) k
    · rfl
    · have := hasKeyL_eraseKey_imp c.cache k0 k hh
      rw [h] at this
      exact Bool.noConfusion this

theorem set_of_has [DecidableEq K] (c : LRUCache K V) (k : K) (v : V) (now : Nat)
    (h : hasKeyL c.cache k = true) :
    c.set k v now = ⟨updateEntry c.cache k ⟨v, now⟩, c.maxSize⟩ := by
  simp [LRUCache.set, mapSet, h]

theorem set_of_not_has_lt [DecidableEq K] (c : LRUCache K V) (k : K) (v : V)
    (now : Nat) (h : hasKeyL c.cache k = false) (hlen : c.cache.length < c.maxSize) :
    c.set k v now = ⟨c.cache ++ [(k, ⟨v, now⟩)], c.maxSize⟩ := by
  have hd : decide (c.maxSize ≤ c.cache.length) = false :=
    decide_eq_false (not_le.mpr hlen)
  simp [LRUCache.set, mapSet, h, hd]

theorem set_of_not_has_ge [DecidableEq K] (c : LRUCache K V) (k : K) (v : V)
    (now : Nat) (h : hasKeyL c.cache k = false) (hlen : c.maxSize ≤ c.cache.length) :
    c.set k v now = ⟨(c.evictLRU).cache ++ [(k, ⟨v, now⟩)], (c.evictLRU).maxSize⟩ := by
  have hd : decide (c.maxSize ≤ c.cache.length) = true := decide_eq_true hlen
  simp [LRUCache.set, mapSet, h, hd, hasKeyL_evictLRU_false c k h]

theorem set_maxSize [DecidableEq K] (c : LRUCache K V) (k : K) (v : V) (now : Nat) :
    (c.set k v now).maxSize = c.maxSize := by
  cases hk : hasKeyL c.cache k
  · by_cases hlen : c.maxSize ≤ c.cache.length
    · rw [set_of_not_has_ge c k v now hk hlen]
      exact evictLRU_maxSize c
    · rw [set_of_not_has_lt c k v now hk (not_le.mp hlen)]
  · rw [set_of_has c k v now hk]

theorem set_length_le [DecidableEq K] (c : LRUCache K V) (k : K) (v : V) (now : Nat)
    (hN : 1 ≤ c.maxSize) (h : c.cache.length ≤ c.maxSize) :
    (c.set k v now).cache.length ≤ c.maxSize := by
  cases hk : hasKeyL c.cache k
  · by_cases hlen : c.maxSize ≤ c.cache.length
    · rw [set_of_not_has_ge c k v now hk hlen]
      have hne : c.cache ≠ [] := by
        intro h0
        rw [h0] at hlen
        simp at hlen
        omega
      have hlen1 := evictLRU_length c hne
      simp only [List.length_append, List.length_cons, List.length_nil]
      omega
    · rw [set_of_not_has_lt c k v now hk (not_le.mp hlen)]
      simp only [List.length_append, List.length_cons, List.length_nil]
      omega
  · rw [set_of_has c k v now hk]
    simpa [updateEntry_length] using h

theorem get_snd_cache [DecidableEq K] (c : LRUCache K V) (k : K) (now : Nat)
    (e : CacheEntry V) (h : lookupEntry c.cache k = some e) :
    (c.get k now).2 = ⟨updateEntry c.cache k ⟨e.value, now⟩, c.maxSize⟩ := by
  simp [LRUCache.get, h]

theorem get_snd_length [DecidableEq K] (c : LRUCache K V) (k : K) (now : Nat) :
    ((c.get k now).2).cache.length = c.cache.length := by
  unfold LRUCache.get
  cases h : lookupEntry c.cache k
  · rfl
  · simp [updateEntry_length]

theorem get_snd_maxSize [DecidableEq K] (c : LRUCache K V) (k : K) (now : Nat) :
    ((c.get k now).2).maxSize = c.maxSize := by
  unfold LRUCache.get
  cases h : lookupEntry c.cache k
  · rfl
  · rfl

theorem applyOp_maxSize [DecidableEq K] (c : LRUCache K V) (op : CacheOp K V) :
    (applyOp c op).maxSize = c.maxSize := by
  cases op with
  | get k now => exact get_snd_maxSize c k now
  | set k v now => exact set_maxSize c k v now

theorem applyOp_length_le [DecidableEq K] (c : LRUCache K V) (op : CacheOp K V)
    (hN : 1 ≤ c.maxSize) (h : c.cache.length ≤ c.maxSize) :
    (applyOp c op).cache.length ≤ c.maxSize := by
  cases op with
  | get k now => simpa [applyOp, get_snd_length] using h
  | set k v now => exact set_length_le c k v now hN h

theorem runOps_invariant [DecidableEq K] (ops : List (CacheOp K V)) :
    ∀ c : LRUCache K V, 1 ≤ c.maxSize → c.cache.length ≤ c.maxSize →
    (runOps c ops).maxSize = c.maxSize ∧ (runOps c ops).cache.length ≤ c.maxSize := by
  induction ops with
  | nil =>
    intro c _ h
    exact ⟨rfl, h⟩
  | cons op rest ih =>
    intro c hN h
    have hm := applyOp_maxSize c op
    have hl := applyOp_length_le c op hN h
    have hrec := ih (applyOp c op) (by rw [hm]; exact hN) (by rw [hm]; exact hl)
    rw [runOps]
    exact ⟨hrec.1.trans hm, hm ▸ hrec.2⟩

theorem runOps_append [DecidableEq K] (c : LRUCache K V) (l1 l2 : List (CacheOp K V)) :
    runOps c (l1 ++ l2) = runOps (runOps c l1) l2 := by
  induction l1 generalizing c with
  | nil => rfl
  | cons op rest ih => simp [runOps, ih]

theorem keysOf_map_pair (ks : List K) (v : V) (now : Nat) :
    keysOf (ks.map (fun k => (k, (⟨v, now⟩ : CacheEntry V)))) = ks := by
  induction ks with
  | nil => rfl
  | cons k ks ih =>
    simp only [keysOf] at ih ⊢
    rw [List.map_cons, List.map_cons, ih]

theorem runOps_fresh_inserts [DecidableEq K] (v : V) (now : Nat) (ks : List K) :
    ∀ c : LRUCache K V, ks.Nodup → (∀ k ∈ ks, hasKeyL c.cache k = false) →
    c.cache.length + ks.length ≤ c.maxSize →
    (runOps c (ks.map (fun k => CacheOp.set k v now))).cache
        = c.cache ++ ks.map (fun k => (k, (⟨v, now⟩ : CacheEntry V)))
    ∧ (runOps c (ks.map (fun k => CacheOp.set k v now))).maxSize = c.maxSize := by
  induction ks with
  | nil =>
    intro c _ _ _
    simp [runOps]
  | cons k ks ih =>
    intro c hnd hfresh hlen
    have hk : hasKeyL c.cache k = false := hfresh k (List.mem_cons_self k ks)
    have hlt : c.cache.length < c.maxSize := by
      simp only [List.length_cons] at hlen
      omega
    have hset := set_of_not_has_lt c k v now hk hlt
    simp only [List.map_cons]
    rw [runOps]
    have happ : applyOp c (CacheOp.set k v now) = c.set k v now := rfl
    rw [happ, hset]
    have hfresh2 : ∀ k2 ∈ ks,
        hasKeyL ((⟨c.cache ++ [(k, ⟨v, now⟩)], c.maxSize⟩ : LRUCache K V)).cache k2 = false := by
      intro k2 hk2
      have hne : k2 ≠ k := by
        intro he
        rw [he] at hk2
        exact (List.nodup_cons.mp hnd).1 hk2
      show hasKeyL (c.cache ++ [(k, ⟨v, now⟩)]) k2 = false
      rw [hasKeyL_append, hfresh k2 (List.mem_cons_of_mem k hk2),
        hasKeyL_singleton_ne k k2 ⟨v, now⟩ (fun he => hne he.symm)]
      rfl
    have hlen2 : ((⟨c.cache ++ [(k, ⟨v, now⟩)], c.maxSize⟩ : LRUCache K V)).cache.length
        + ks.length ≤ ((⟨c.cache ++ [(k, ⟨v, now⟩)], c.maxSize⟩ : LRUCache K V)).maxSize := by
      show (c.cache ++ [(k, (⟨v, now⟩ : CacheEntry V))]).length + ks.length ≤ c.maxSize
      simp only [List.length_append, List.length_cons, List.length_nil]
      simp only [List.length_cons] at hlen
      omega
    obtain ⟨h1, h2⟩ := ih (⟨c.cache ++ [(k, ⟨v, now⟩)], c.maxSize⟩ : LRUCache K V)
      (List.nodup_cons.mp hnd).2 hfresh2 hlen2
    refine ⟨?_, h2⟩
    rw [h1]
    show (c.cache ++ [(k, ⟨v, now⟩)]) ++ ks.map _ = c.cache ++ (k, ⟨v, now⟩) :: ks.map _
    rw [List.append_assoc, List.singleton_append]

theorem runOps_capacity_fill [DecidableEq K] (N : Nat) (hN : 1 ≤ N) (ks : List K)
    (v : V) (now : Nat) (hnd : ks.Nodup) (hlen : ks.length = N + 1) :
    (runOps (LRUCache.empty K V N) (ks.map (fun k => CacheOp.set k v now))).cache.length
      = N := by
  have hsplit : ks.take N ++ ks.drop N = ks := List.take_append_drop N ks
  have hdl : (ks.drop N).length = 1 := by
    rw [List.length_drop, hlen]
    omega
  obtain ⟨klast, hkl⟩ := List.length_eq_one.mp hdl
  have htl : (ks.take N).length = N := by
    rw [List.length_take, hlen]
    exact Nat.min_eq_left (Nat.le_succ N)
  have hnd2 : (ks.take N ++ ks.drop N).Nodup := by rw [hsplit]; exact hnd
  rcases List.nodup_append.mp hnd2 with ⟨hndt, _, hdisj⟩
  obtain ⟨h1, h2⟩ := runOps_fresh_inserts v now (ks.take N) (LRUCache.empty K V N)
    hndt (fun _ _ => rfl) (by simp [LRUCache.empty, htl])
  rw [← hsplit, List.map_append, runOps_append, hkl]
  have hc1cache : (runOps (LRUCache.empty K V N)
      ((ks.take N).map (fun k => CacheOp.set k v now))).cache
      = (ks.take N).map (fun k => (k, (⟨v, now⟩ : CacheEntry V))) := by
    rw [h1]
    rfl
  have hc1len : (runOps (LRUCache.empty K V N)
      ((ks.take N).map (fun k => CacheOp.set k v now))).cache.length = N := by
    rw [hc1cache, List.length_map, htl]
  have hklastmem : klast ∈ ks.drop N := by
    rw [hkl]
    exact List.mem_cons_self klast []
  have hklastfresh : hasKeyL (runOps (LRUCache.empty K V N)
      ((ks.take N).map (fun k => CacheOp.set k v now))).cache klast = false := by
    cases hh : hasKeyL (runOps (LRUCache.empty K V N)
        ((ks.take N).map (fun k => CacheOp.set k v now))).cache klast
    · rfl
    · exfalso
      have := (hasKeyL_iff_mem_keysOf _ _).mp hh
      rw [hc1cache, keysOf_map_pair] at this
      exact hdisj this hklastmem
  have hge : (runOps (LRUCache.empty K V N)
      ((ks.take N).map (fun k => CacheOp.set k v now))).maxSize
      ≤ (runOps (LRUCache.empty K V N)
      ((ks.take N).map (fun k => CacheOp.set k v now))).cache.length := by
    rw [hc1len, h2]
    exact Nat.le_refl N
  have hset := set_of_not_has_ge _ klast v now hklastfresh hge
  have hne1 : (runOps (LRUCache.empty K V N)
      ((ks.take N).map (fun k => CacheOp.set k v now))).cache ≠ [] := by
    intro h0
    rw [h0] at hc1len
    simp at hc1len
    omega
  have hev := evictLRU_length _ hne1
  show ((runOps (LRUCache.empty K V N)
      ((ks.take N).map (fun k => CacheOp.set k v now))).set klast v now).cache.length = N
  rw [hset]
  simp only [List.length_append, List.length_cons, List.length_nil]
  omega

/-- C5 counterexample: the capacity bound fails at capacity 0 — setting one
key in an LRUCache of maxSize 0 evicts nothing (the scan of the empty map
finds no oldest entry) and then inserts, yielding one entry, so "size never
exceeds N" does not hold for every capacity N. -/
theorem lru_capacity_zero_cex :
    ¬ (∀ (N : Nat) (ops : List (CacheOp Nat Nat)),
        (runOps (LRUCache.empty Nat Nat N) ops).cache.length ≤ N) := by
  intro h
  exact absurd (h 0 [CacheOp.set 1 10 0]) (by decide)

/-- C5 (amended): cache capacity invariant for every positive capacity N.
Any sequence of get/set operations from the empty cache keeps the size at
most N; inserting N+1 distinct keys yields exactly N entries; a set of a new
key at capacity keeps the size at N while adding the key (one existing entry
is evicted before inserting); and a set of an already-present key evicts
nothing — size and key set are unchanged. -/
theorem lru_capacity_bound {K V : Type} [DecidableEq K] (N : Nat) (hN : 1 ≤ N) :
    (∀ ops : List (CacheOp K V),
      (runOps (LRUCache.empty K V N) ops).cache.length ≤ N)
    ∧ (∀ (ks : List K) (v : V) (now : Nat), ks.Nodup → ks.length = N + 1 →
      (runOps (LRUCache.empty K V N)
        (ks.map (fun k => CacheOp.set k v now))).cache.length = N)
    ∧ (∀ (c : LRUCache K V) (k : K) (v : V) (now : Nat),
      c.maxSize = N → c.cache.length = N → hasKeyL c.cache k = false →
      (c.set k v now).cache.length = N ∧ hasKeyL (c.set k v now).cache k = true)
    ∧ (∀ (c : LRUCache K V) (k : K) (v : V) (now : Nat),
      hasKeyL c.cache k = true →
      (c.set k v now).cache.length = c.cache.length
      ∧ keysOf (c.set k v now).cache = keysOf c.cache) := by
  refine ⟨?_, ?_, ?_, ?_⟩
  · intro ops
    exact (runOps_invariant ops (LRUCache.empty K V N) hN (by simp [LRUCache.empty])).2
  · intro ks v now hnd hlen
    exact runOps_capacity_fill N hN ks v now hnd hlen
  · intro c k v now hmax hlen hk
    have hge : c.maxSize ≤ c.cache.length := by rw [hmax, hlen]
    rw [set_of_not_has_ge c k v now hk hge]
    have hne : c.cache ≠ [] := by
      intro h0
      rw [h0] at hlen
      simp at hlen
      omega
    have hev := evictLRU_length c hne
    constructor
    · show ((c.evictLRU).cache ++ [(k, (⟨v, now⟩ : CacheEntry V))]).length = N
      simp only [List.length_append, List.length_cons, List.length_nil]
      omega
    · show hasKeyL ((c.evictLRU).cache ++ [(k, (⟨v, now⟩ : CacheEntry V))]) k = true
      rw [hasKeyL_append]
      have hone : hasKeyL [(k, (⟨v, now⟩ : CacheEntry V))] k = true := by
        simp [hasKeyL, lookupEntry]
      rw [hone]
      simp
  · intro c k v now hk
    rw [set_of_has c k v now hk]
    exact ⟨updateEntry_length c.cache k ⟨v, now⟩, updateEntry_keysOf c.cache k ⟨v, now⟩⟩

/-- Witness for C5 at capacity 1: two inserts from the empty cache keep the
size at most 1. -/
theorem lru_capacity_bound_witness :
    (runOps (LRUCache.empty Nat Nat 1)
      [CacheOp.set 1 10 0, CacheOp.set 2 20 1]).cache.length ≤ 1 :=
  (lru_capacity_bound 1 (by decide)).1 [CacheOp.set 1 10 0, CacheOp.set 2 20 1]

/-- C7: the eviction target is always a least-recently-used entry, and the
choice among timestamp ties is deterministic: `evictLRU` removes exactly the
first entry (in the map's insertion/iteration order) whose last-access
timestamp is minimal — every entry before it is strictly newer, and no entry
at all is older. -/
theorem lru_evicts_first_oldest {K V : Type} [DecidableEq K] (c : LRUCache K V)
    (hne : c.cache ≠ []) (hnd : (keysOf c.cache).Nodup) :
    ∃ pre p post, c.cache = pre ++ p :: post
      ∧ (c.evictLRU).cache = pre ++ post
      ∧ (∀ q ∈ c.cache, p.2.lastAccessed ≤ q.2.lastAccessed)
      ∧ (∀ q ∈ pre, p.2.lastAccessed < q.2.lastAccessed) := by
  obtain ⟨pre, p, post, h1, h2, _, h4, h5⟩ := evictLRU_decomp c hne hnd
  exact ⟨pre, p, post, h1, h2, h4, h5⟩

/-- Witness for C7: in a concrete two-entry cache the entry with the older
timestamp (key 2, time 3) is the eviction target. -/
theorem lru_evicts_first_oldest_witness :
    ∃ pre p post,
      (⟨[(1, ⟨10, 5⟩), (2, ⟨20, 3⟩)], 2⟩ : LRUCache Nat Nat).cache = pre ++ p :: post
      ∧ ((⟨[(1, ⟨10, 5⟩), (2, ⟨20, 3⟩)], 2⟩ : LRUCache Nat Nat).evictLRU).cache
          = pre ++ post
      ∧ (∀ q ∈ (⟨[(1, ⟨10, 5⟩), (2, ⟨20, 3⟩)], 2⟩ : LRUCache Nat Nat).cache,
          p.2.lastAccessed ≤ q.2.lastAccessed)
      ∧ (∀ q ∈ pre, p.2.lastAccessed < q.2.lastAccessed) :=
  lru_evicts_first_oldest (⟨[(1, ⟨10, 5⟩), (2, ⟨20, 3⟩)], 2⟩ : LRUCache Nat Nat)
    (by decide) (by decide)

/-- C6 counterexample: capacity 2, keys 1 and 2 both inserted at time 0; key
1 is then accessed via `get` (still at time 0, a timestamp tie) before key 3
is inserted — yet that insertion evicts key 1, the accessed entry, because it
is the first entry carrying the minimal timestamp; so "accessing an entry via
get before the (N+1)th insertion protects it from eviction" fails as stated. -/
theorem lru_get_tie_eviction_cex :
    ((((LRUCache.empty Nat Nat 2).set 1 10 0).set 2 20 0).get 1 0).1 = some 10
    ∧ hasKeyL (((((LRUCache.empty Nat Nat 2).set 1 10 0).set 2 20 0).get 1 0).2.set
        3 30 0).cache 1 = false := by
  decide

/-- C6 (amended): `get` on a present key sets that entry's last-access
timestamp to the read clock value, and this protects it from the eviction
caused by inserting the (N+1)th distinct key provided some other entry is
strictly older than the get's timestamp (with a full tie the first entry in
iteration order — possibly the accessed one — is evicted instead, see the
counterexample): the accessed key survives the insertion, the new key is
present, the size stays at capacity, and the evicted entry is one with
minimal last-access timestamp. -/
theorem lru_get_refresh_protects {K V : Type} [DecidableEq K] (c : LRUCache K V)
    (k k' : K) (now : Nat) (v' : V) (now' : Nat)
    (hcap : c.cache.length = c.maxSize) (hN : 1 ≤ c.maxSize)
    (hnd : (keysOf c.cache).Nodup)
    (hk : hasKeyL c.cache k = true) (hk' : hasKeyL c.cache k' = false)
    (hfresh : ∃ q ∈ c.cache, q.1 ≠ k ∧ q.2.lastAccessed < now) :
    (∃ e, lookupEntry ((c.get k now).2).cache k = some e ∧ e.lastAccessed = now)
    ∧ hasKeyL (((c.get k now).2).set k' v' now').cache k = true
    ∧ hasKeyL (((c.get k now).2).set k' v' now').cache k' = true
    ∧ (((c.get k now).2).set k' v' now').cache.length = c.maxSize
    ∧ (∃ q ∈ ((c.get k now).2).cache,
        hasKeyL (((c.get k now).2).set k' v' now').cache q.1 = false
        ∧ ∀ r ∈ ((c.get k now).2).cache, q.2.lastAccessed ≤ r.2.lastAccessed) := by
  obtain ⟨e0, he0⟩ : ∃ e0, lookupEntry c.cache k = some e0 := by
    cases h0 : lookupEntry c.cache k with
    | none =>
      unfold hasKeyL at hk
      rw [h0] at hk
      exact Bool.noConfusion hk
    | some e => exact ⟨e, rfl⟩
  have hc1 := get_snd_cache c k now e0 he0
  rw [hc1]
  have hkeys : keysOf (updateEntry c.cache k ⟨e0.value, now⟩) = keysOf c.cache :=
    updateEntry_keysOf c.cache k ⟨e0.value, now⟩
  have hlen1 : (updateEntry c.cache k ⟨e0.value, now⟩).length = c.maxSize := by
    rw [updateEntry_length, hcap]
  have hnd1 : (keysOf (updateEntry c.cache k ⟨e0.value, now⟩)).Nodup := by
    rw [hkeys]
    exact hnd
  have hk1 : hasKeyL (updateEntry c.cache k ⟨e0.value, now⟩) k = true := by
    rw [hasKeyL_iff_mem_keysOf, hkeys]
    exact (hasKeyL_iff_mem_keysOf c.cache k).mp hk
  have hk1' : hasKeyL (updateEntry c.cache k ⟨e0.value, now⟩) k' = false := by
    cases hh : hasKeyL (updateEntry c.cache k ⟨e0.value, now⟩) k' with
    | false => rfl
    | true =>
      exfalso
      have hm := (hasKeyL_iff_mem_keysOf _ k').mp hh
      rw [hkeys] at hm
      have hx := (hasKeyL_iff_mem_keysOf c.cache k').mpr hm
      rw [hk'] at hx
      exact Bool.noConfusion hx
  have hke : (k, (⟨e0.value, now⟩ : CacheEntry V)) ∈ updateEntry c.cache k ⟨e0.value, now⟩ :=
    lookupEntry_mem _ k _ (lookupEntry_updateEntry_self c.cache k ⟨e0.value, now⟩ hk)
  obtain ⟨q0, hq0mem, hq0ne, hq0lt⟩ := hfresh
  have hq0mem1 : q0 ∈ updateEntry c.cache k ⟨e0.value, now⟩ :=
    updateEntry_mem_of_ne c.cache k ⟨e0.value, now⟩ q0 hq0mem hq0ne
  have hge : (⟨updateEntry c.cache k ⟨e0.value, now⟩, c.maxSize⟩ : LRUCache K V).maxSize
      ≤ (⟨updateEntry c.cache k ⟨e0.value, now⟩, c.maxSize⟩ : LRUCache K V).cache.length := by
    show c.maxSize ≤ (updateEntry c.cache k ⟨e0.value, now⟩).length
    rw [hlen1]
  have hset := set_of_not_has_ge
    (⟨updateEntry c.cache k ⟨e0.value, now⟩, c.maxSize⟩ : LRUCache K V) k' v' now' hk1' hge
  have hne1 : (⟨updateEntry c.cache k ⟨e0.value, now⟩, c.maxSize⟩ : LRUCache K V).cache ≠ [] := by
    show updateEntry c.cache k ⟨e0.value, now⟩ ≠ []
    intro h0
    rw [h0] at hlen1
    simp at hlen1
    omega
  obtain ⟨pre, p, post, hdec, hevc, _, hmin, _⟩ :=
    evictLRU_decomp (⟨updateEntry c.cache k ⟨e0.value, now⟩, c.maxSize⟩ : LRUCache K V) hne1 hnd1
  have hdec2 : updateEntry c.cache k ⟨e0.value, now⟩ = pre ++ p :: post := hdec
  have hpk : p.1 ≠ k := by
    intro he
    have hpmem : p ∈ updateEntry c.cache k ⟨e0.value, now⟩ := by
      rw [hdec2]
      exact List.mem_append_right pre (List.mem_cons_self p post)
    have hpe := nodup_key_unique (updateEntry c.cache k ⟨e0.value, now⟩) hnd1 p
      (k, ⟨e0.value, now⟩) hpmem hke (by rw [he])
    have hlast : p.2.lastAccessed = now := by rw [hpe]
    have hle := hmin q0 hq0mem1
    rw [hlast] at hle
    exact absurd hq0lt (not_lt.mpr hle)
  have hkmem2 : (k, (⟨e0.value, now⟩ : CacheEntry V)) ∈ pre ++ post := by
    rw [hdec2] at hke
    rcases List.mem_append.mp hke with h1 | h1
    · exact List.mem_append_left post h1
    · rcases List.mem_cons.mp h1 with h2 | h2
      · exact absurd (by rw [← h2]) hpk
      · exact List.mem_append_right pre h2
  refine ⟨⟨⟨e0.value, now⟩, ?_, rfl⟩, ?_, ?_, ?_, ?_⟩
  · exact lookupEntry_updateEntry_self c.cache k ⟨e0.value, now⟩ hk
  · rw [hset]
    show hasKeyL
      (((⟨updateEntry c.cache k ⟨e0.value, now⟩, c.maxSize⟩ : LRUCache K V).evictLRU).cache
        ++ [(k', ⟨v', now'⟩)]) k = true
    rw [hevc, hasKeyL_append]
    have hkm : hasKeyL (pre ++ post) k = true :=
      hasKeyL_of_mem (pre ++ post) (k, ⟨e0.value, now⟩) hkmem2
    rw [hkm]
    rfl
  · rw [hset]
    show hasKeyL
      (((⟨updateEntry c.cache k ⟨e0.value, now⟩, c.maxSize⟩ : LRUCache K V).evictLRU).cache
        ++ [(k', ⟨v', now'⟩)]) k' = true
    rw [hasKeyL_append]
    have hone : hasKeyL [(k', (⟨v', now'⟩ : CacheEntry V))] k' = true := by
      simp [hasKeyL, lookupEntry]
    rw [hone]
    simp
  · rw [hset]
    show (((⟨updateEntry c.cache k ⟨e0.value, now⟩, c.maxSize⟩ : LRUCache K V).evictLRU).cache
        ++ [(k', (⟨v', now'⟩ : CacheEntry V))]).length = c.maxSize
    rw [hevc]
    have hlenu : (pre ++ p :: post).length = c.maxSize := by
      rw [← hdec2]
      exact hlen1
    simp only [List.length_append, List.length_cons, List.length_nil] at hlenu ⊢
    omega
  · refine ⟨p, ?_, ?_, ?_⟩
    · show p ∈ updateEntry c.cache k ⟨e0.value, now⟩
      rw [hdec2]
      exact List.mem_append_right pre (List.mem_cons_self p post)
    · rw [hset]
      show hasKeyL
        (((⟨updateEntry c.cache k ⟨e0.value, now⟩, c.maxSize⟩ : LRUCache K V).evictLRU).cache
          ++ [(k', ⟨v', now'⟩)]) p.1 = false
      rw [hevc, hasKeyL_append]
      have hnd2 : (keysOf (pre ++ p :: post)).Nodup := by
        rw [← hdec2]
        exact hnd1
      simp only [keysOf, List.map_append, List.map_cons] at hnd2
      rcases List.nodup_append.mp hnd2 with ⟨hnp, hnc, hdisj⟩
      have hppre : hasKeyL pre p.1 = false := by
        cases hh : hasKeyL pre p.1 with
        | false => rfl
        | true =>
          exfalso
          have hm := (hasKeyL_iff_mem_keysOf pre p.1).mp hh
          exact hdisj hm (List.mem_cons_self _ _)
      have hppost : hasKeyL post p.1 = false := by
        cases hh : hasKeyL post p.1 with
        | false => rfl
        | true =>
          exfalso
          have hm := (hasKeyL_iff_mem_keysOf post p.1).mp hh
          exact (List.nodup_cons.mp hnc).1 hm
      have hk'p : k' ≠ p.1 := by
        intro he
        have hpmem : p ∈ updateEntry c.cache k ⟨e0.value, now⟩ := by
          rw [hdec2]
          exact List.mem_append_right pre (List.mem_cons_self p post)
        have hhp : hasKeyL (updateEntry c.cache k ⟨e0.value, now⟩) p.1 = true :=
          hasKeyL_of_mem _ p hpmem
        rw [← he, hk1'] at hhp
        exact Bool.noConfusion hhp
      rw [hasKeyL_append, hppre, hppost,
        hasKeyL_singleton_ne k' p.1 ⟨v', now'⟩ hk'p]
      rfl
    · exact hmin

/-- Witness for C6: a capacity-2 cache holding keys 1 (time 0) and 2 (time
1); key 2 is read at time 5 and key 3 then inserted at time 6 — key 2
survives, key 3 is present, the size stays 2, and a least-recently-accessed
entry was evicted. -/
theorem lru_get_refresh_protects_witness :
    (∃ e, lookupEntry (((⟨[(1, ⟨10, 0⟩), (2, ⟨20, 1⟩)], 2⟩ : LRUCache Nat Nat).get
        2 5).2).cache 2 = some e ∧ e.lastAccessed = 5)
    ∧ hasKeyL ((((⟨[(1, ⟨10, 0⟩), (2, ⟨20, 1⟩)], 2⟩ : LRUCache Nat Nat).get 2 5).2).set
        3 30 6).cache 2 = true
    ∧ hasKeyL ((((⟨[(1, ⟨10, 0⟩), (2, ⟨20, 1⟩)], 2⟩ : LRUCache Nat Nat).get 2 5).2).set
        3 30 6).cache 3 = true
    ∧ ((((⟨[(1, ⟨10, 0⟩), (2, ⟨20, 1⟩)], 2⟩ : LRUCache Nat Nat).get 2 5).2).set
        3 30 6).cache.length = (⟨[(1, ⟨10, 0⟩), (2, ⟨20, 1⟩)], 2⟩ : LRUCache Nat Nat).maxSize
    ∧ (∃ q ∈ (((⟨[(1, ⟨10, 0⟩), (2, ⟨20, 1⟩)], 2⟩ : LRUCache Nat Nat).get 2 5).2).cache,
        hasKeyL ((((⟨[(1, ⟨10, 0⟩), (2, ⟨20, 1⟩)], 2⟩ : LRUCache Nat Nat).get 2 5).2).set
          3 30 6).cache q.1 = false
        ∧ ∀ r ∈ (((⟨[(1, ⟨10, 0⟩), (2, ⟨20, 1⟩)], 2⟩ : LRUCache Nat Nat).get 2 5).2).cache,
            q.2.lastAccessed ≤ r.2.lastAccessed) :=
  lru_get_refresh_protects (⟨[(1, ⟨10, 0⟩), (2, ⟨20, 1⟩)], 2⟩ : LRUCache Nat Nat)
    2 3 5 30 6 (by decide) (by decide) (by decide) (by decide) (by decide)
    ⟨(1, ⟨10, 0⟩), by decide, by decide, by decide⟩
